import Mathlib

/-!
Verification of the struct-of-arrays storage engine generated by
`src/soapy-derive/src/fields.rs` (`fields_struct`).

The derive macro emits, for a record type with fields `T0, ..., T(N-1)`, a raw
storage type holding one pointer per field into a single allocation, together
with the methods `layout_and_offsets`, `with_offsets`, `as_ptr`, `from_parts`,
`alloc`, `realloc_grow`, `realloc_shrink`, `copy`, `set` and `get`.

Shallow embedding used here:

* A field type `Ti` is represented by a `FieldDesc` carrying its `size` and
  `align` (the only data the generated code consumes about a type, via
  `std::alloc::Layout::array::<Ti>(cap)`).
* `std::alloc::Layout` is a pair `size`/`align`; the fallible constructors
  (`Layout::array`, `Layout::extend`, which the generated code `.unwrap()`s)
  are embedded as `Option`-returning functions whose success condition is the
  `isize::MAX` bound std checks (`size ≤ isize::MAX - (align - 1)`), on a
  64-bit platform.  The `.unwrap()` panic on overflow is modelled as `none`
  propagating to the caller.
* Memory is a total map from byte addresses to byte values (`Mem`).
  `std::ptr::copy` (overlap-safe `memmove` semantics) and typed
  `ptr.add(i).write`/`read` of a `Ti` value become byte-region operations; a
  value of field `i` is its byte representation, a `List Nat` of length
  `size i`.
* `realloc` preserves the contents of the common prefix of the old and new
  block; the embedding keeps the block at the same base address, which is
  equivalent up to translation for all content statements proved here, and
  models the relocation loops of `realloc_grow` (reverse declaration order)
  and `realloc_shrink` (forward declaration order) exactly as emitted.
* A raw storage value (`#raw`, one `NonNull<Ti>` per field) is the list of its
  per-field base addresses, in declaration order.
-/

namespace Soa

/-- Byte-addressed memory: a total map from addresses to byte values. -/
def Mem : Type := Nat → Nat

/-- Overlap-safe move of `len` bytes from `src` to `dst`, the semantics of
`std::ptr::copy` (i.e. `memmove`): the destination region afterwards holds the
bytes the source region held before, all other addresses are unchanged. -/
def memmove (m : Mem) (src dst len : Nat) : Mem :=
  fun a => if dst ≤ a ∧ a < dst + len then m (src + (a - dst)) else m a

/-- Read `len` bytes starting at `addr`. -/
def readBytes (m : Mem) (addr len : Nat) : List Nat :=
  (List.range len).map (fun k => m (addr + k))

/-- Write the byte list `bs` starting at `addr`. -/
def writeList (m : Mem) (addr : Nat) (bs : List Nat) : Mem :=
  fun a => if addr ≤ a ∧ a < addr + bs.length then bs.getD (a - addr) 0 else m a

/-- One `std::ptr::copy` call: source address, destination address, length in
bytes. -/
structure Move where
  src : Nat
  dst : Nat
  len : Nat

/-- Execute a sequence of moves left to right. -/
def applyMoves (m : Mem) : List Move → Mem
  | [] => m
  | mv :: rest => applyMoves (memmove m mv.src mv.dst mv.len) rest

/-- Size and alignment of one field type, the data `Layout::array::<T>` uses. -/
structure FieldDesc where
  size : Nat
  align : Nat
deriving DecidableEq, Repr

instance : Inhabited FieldDesc := ⟨⟨0, 1⟩⟩

/-- Embeds `std::alloc::Layout`: a size and an alignment. -/
structure Layout where
  size : Nat
  align : Nat
deriving DecidableEq, Repr

/-- The platform's `isize::MAX` (64-bit platform), the bound std's `Layout`
constructors enforce on sizes. -/
def isizeMax : Nat := 2 ^ 63 - 1

/-- Round `n` up to the next multiple of `a`; this is
`Layout::padding_needed_for` added to the size (std documents it as rounding
the size up to the nearest multiple of `align`, computed for power-of-two
alignments). -/
def roundUp (n a : Nat) : Nat := (n + a - 1) / a * a

/-- Embeds `std::alloc::Layout::array::<T>(n)`: succeeds with the layout
`{ size * n, align }` iff the array size fits below `isize::MAX` even when
rounded up to the alignment (std checks `size * n ≤ isize::MAX - (align-1)`). -/
def layoutArray (f : FieldDesc) (n : Nat) : Option Layout :=
  if f.size * n ≤ isizeMax - (f.align - 1) then some ⟨f.size * n, f.align⟩ else none

/-- Embeds `Layout::extend`: the offset is the running size rounded up to the
next layout's alignment, the new size is `offset + next.size`, the new
alignment the max of the two; fails (as `Layout::from_size_align` does) iff
the new size exceeds `isize::MAX - (new_align - 1)`. -/
def layoutExtend (l next : Layout) : Option (Layout × Nat) :=
  if roundUp l.size next.align + next.size ≤ isizeMax - (max l.align next.align - 1) then
    some (⟨roundUp l.size next.align + next.size, max l.align next.align⟩,
      roundUp l.size next.align)
  else none

/-- The loop body of `layout_and_offsets` over the tail fields: starting from
the running layout `l`, extend by each tail field's array layout in turn,
collecting the offsets in order.  Any `unwrap` failure is `none`. -/
def extendAll (l : Layout) (cap : Nat) : List FieldDesc → Option (Layout × List Nat)
  | [] => some (l, [])
  | f :: fs =>
    match layoutArray f cap with
    | none => none
    | some array =>
      match layoutExtend l array with
      | none => none
      | some (l2, offset) =>
        match extendAll l2 cap fs with
        | none => none
        | some (lf, offsets) => some (lf, offset :: offsets)

/-- Embeds the generated `layout_and_offsets(cap)`: the head field's array
layout extended by every tail field's array layout.  The returned offset list
holds the tail fields' offsets (the generated code writes `offsets[i]` for the
`i`-th tail field; the head field always lives at offset `0` of the block, as
`with_offsets` hard-codes).  The macro only generates this for a non-empty
field list (zero-field types take the ZST path), hence `none` on `[]`. -/
def layout_and_offsets (fs : List FieldDesc) (cap : Nat) : Option (Layout × List Nat) :=
  match fs with
  | [] => none
  | f :: tail =>
    match layoutArray f cap with
    | none => none
    | some l0 => extendAll l0 cap tail

/-- Unchecked (ideal, arbitrary-precision) counterpart of `extendAll`: the
same arithmetic with no `isize::MAX` checks.  Used to state that the checked
computation never wraps: on success it coincides with this ideal one. -/
def extendU (l : Layout) (cap : Nat) : List FieldDesc → Layout × List Nat
  | [] => (l, [])
  | f :: fs =>
    ((extendU ⟨roundUp l.size f.align + f.size * cap, max l.align f.align⟩ cap fs).1,
      roundUp l.size f.align ::
        (extendU ⟨roundUp l.size f.align + f.size * cap, max l.align f.align⟩ cap fs).2)

/-- Unchecked counterpart of `layout_and_offsets` for a head field `f` and
tail `fs`. -/
def layoutU (f : FieldDesc) (cap : Nat) (fs : List FieldDesc) : Layout × List Nat :=
  extendU ⟨f.size * cap, f.align⟩ cap fs

/-- Embeds the generated `with_offsets(ptr, offsets)`: the storage whose field
base pointers are `ptr + offset` for each field, the head field at `ptr`
itself.  `offs` here is the full per-field offset list `0 :: tail_offsets`. -/
def with_offsets (ptr : Nat) (offs : List Nat) : List Nat :=
  offs.map (fun o => ptr + o)

/-- Embeds the generated `as_ptr()`: the head field's pointer reinterpreted as
the allocation's byte pointer. -/
def as_ptr (bases : List Nat) : Nat :=
  bases.headD 0

/-- Embeds the generated `from_parts(ptr, capacity)`: recompute the offsets
for `capacity` and rebuild the storage over `ptr`. -/
def from_parts (fs : List FieldDesc) (ptr cap : Nat) : Option (List Nat) :=
  match layout_and_offsets fs cap with
  | none => none
  | some (_, offsets) => some (with_offsets ptr (0 :: offsets))

/-- Embeds the generated `alloc(capacity)`: compute layout and offsets (any
overflow panic propagates as `none` before the allocator runs), then place the
storage over the block the allocator `A` returns for that layout. -/
def alloc (A : Layout → Nat) (fs : List FieldDesc) (cap : Nat) : Option (List Nat) :=
  match layout_and_offsets fs cap with
  | none => none
  | some (l, offsets) => some (with_offsets (A l) (0 :: offsets))

/-- The per-field relocation moves of a grow/shrink: for each field (size
`f.size`, source offset `o.1`, destination offset `o.2` in the block at
`ptr`), move `L` elements, i.e. `L * f.size` bytes. -/
def fieldMoves (ptr L : Nat) (fos : List (FieldDesc × Nat × Nat)) : List Move :=
  fos.map (fun fo => ⟨ptr + fo.2.1, ptr + fo.2.2, L * fo.1.size⟩)

/-- Embeds the memory effect of the generated `realloc_grow(old_capacity,
new_capacity, length)` on the (reallocated, contents-preserved) block at
`ptr`: compute old and new offsets, then `ptr::copy` `length` elements of
every field from its old to its new offset, iterating the fields in reverse
declaration order (`ident_rev`). -/
def realloc_grow (fs : List FieldDesc) (ptr oldCap newCap L : Nat) (m : Mem) : Option Mem :=
  match layout_and_offsets fs newCap, layout_and_offsets fs oldCap with
  | some (_, newOffs), some (_, oldOffs) =>
    some (applyMoves m (fieldMoves ptr L (fs.zip ((0 :: oldOffs).zip (0 :: newOffs)))).reverse)
  | _, _ => none

/-- Embeds the memory effect of the generated `realloc_shrink(old_capacity,
new_capacity, length)`: compute old and new offsets, then `ptr::copy` `length`
elements of every field from its old to its new offset in forward declaration
order, before the block is truncated. -/
def realloc_shrink (fs : List FieldDesc) (ptr oldCap newCap L : Nat) (m : Mem) : Option Mem :=
  match layout_and_offsets fs oldCap, layout_and_offsets fs newCap with
  | some (_, oldOffs), some (_, newOffs) =>
    some (applyMoves m (fieldMoves ptr L (fs.zip ((0 :: oldOffs).zip (0 :: newOffs)))))
  | _, _ => none

/-- Embeds the generated `copy(src, dst, count)`: for each field `f` with base
address `b` (the storage pairs each field descriptor with its base), one
`ptr::copy(ptr.add(src), ptr.add(dst), count)`, i.e. a `memmove` of
`count * f.size` bytes from `b + src * f.size` to `b + dst * f.size`,
iterating fields in declaration order. -/
def copy (m : Mem) (src dst count : Nat) : List (FieldDesc × Nat) → Mem
  | [] => m
  | (f, b) :: fbs =>
    copy (memmove m (b + src * f.size) (b + dst * f.size) (count * f.size)) src dst count fbs

/-- Embeds the generated `set(index, element)`: for each field `f` with base
`b`, write the element's bytes for that field (a list of length `f.size`) at
`b + index * f.size`, iterating fields in declaration order. -/
def set (m : Mem) (idx : Nat) : List (FieldDesc × Nat) → List (List Nat) → Mem
  | (f, b) :: fbs, v :: vs => set (writeList m (b + idx * f.size) v) idx fbs vs
  | _, _ => m

/-- Embeds the generated `get(index)`: for each field `f` with base `b`, read
the `f.size` bytes at `b + index * f.size`. -/
def get (m : Mem) (idx : Nat) (fbs : List (FieldDesc × Nat)) : List (List Nat) :=
  fbs.map (fun fb => readBytes m (fb.2 + idx * fb.1.size) fb.1.size)

/-- Read one element (`idx`-th, `s` bytes) of the field based at offset `off`
in the block at `ptr`. -/
def readElem (m : Mem) (ptr off s idx : Nat) : List Nat :=
  readBytes m (ptr + off + idx * s) s

/-- A `memmove` leaves every address outside the destination region alone. -/
theorem memmove_of_notin {m : Mem} {src dst len a : Nat}
    (h : ¬ (dst ≤ a ∧ a < dst + len)) : memmove m src dst len a = m a := by
  simp only [memmove, if_neg h]

/-- Inside the destination region a `memmove` exposes the source bytes. -/
theorem memmove_in {m : Mem} {src dst len k : Nat} (h : k < len) :
    memmove m src dst len (dst + k) = m (src + k) := by
  have : dst ≤ dst + k ∧ dst + k < dst + len := by omega
  simp only [memmove, if_pos this, Nat.add_sub_cancel_left]

/-- A byte-list write leaves every address outside the written region alone. -/
theorem writeList_of_notin {m : Mem} {addr a : Nat} {bs : List Nat}
    (h : ¬ (addr ≤ a ∧ a < addr + bs.length)) : writeList m addr bs a = m a := by
  simp only [writeList, if_neg h]

theorem readBytes_length (m : Mem) (addr n : Nat) : (readBytes m addr n).length = n := by
  simp [readBytes]

/-- Reads agree when the two memories agree pointwise on the regions read. -/
theorem readBytes_congr {m1 m2 : Mem} {x y n : Nat}
    (h : ∀ k, k < n → m1 (x + k) = m2 (y + k)) : readBytes m1 x n = readBytes m2 y n := by
  apply List.ext_getElem (by simp [readBytes])
  intro i h1 h2
  have hi : i < n := by simpa [readBytes] using h1
  simp only [readBytes, List.getElem_map, List.getElem_range]
  exact h i hi

/-- Reading back a just-written byte list returns it. -/
theorem readBytes_writeList {m : Mem} {addr : Nat} {bs : List Nat} :
    readBytes (writeList m addr bs) addr bs.length = bs := by
  apply List.ext_getElem (by simp [readBytes])
  intro i h1 h2
  have hi : i < bs.length := by simpa [readBytes] using h1
  have hin : addr ≤ addr + i ∧ addr + i < addr + bs.length := by omega
  simp only [readBytes, List.getElem_map, List.getElem_range, writeList, if_pos hin,
    Nat.add_sub_cancel_left]
  exact List.getD_eq_getElem bs 0 hi

/-- A move sequence leaves every address outside all destination regions
alone. -/
theorem applyMoves_of_notin : ∀ (moves : List Move) (m : Mem) (a : Nat),
    (∀ mv ∈ moves, ¬ (mv.dst ≤ a ∧ a < mv.dst + mv.len)) → applyMoves m moves a = m a
  | [], _, _, _ => rfl
  | mv :: rest, m, a, h => by
    have hrest := applyMoves_of_notin rest (memmove m mv.src mv.dst mv.len) a
      (fun u hu => h u (List.mem_cons_of_mem _ hu))
    simp only [applyMoves, hrest]
    exact memmove_of_notin (h mv (List.mem_cons_self _ _))

/-- Main relocation lemma: if the moves are pairwise arranged so that every
earlier move's destination region is disjoint from every later move's source
region and from every later move's destination region, then after the whole
sequence each move's destination region holds exactly the bytes its source
region held initially.  This is the overlap-safety argument shared by the
reverse-order grow relocation and the forward-order shrink relocation. -/
theorem applyMoves_read : ∀ (moves : List Move),
    moves.Pairwise (fun u v =>
      (u.dst + u.len ≤ v.src ∨ v.src + v.len ≤ u.dst) ∧
      (u.dst + u.len ≤ v.dst ∨ v.dst + v.len ≤ u.dst)) →
    ∀ mv ∈ moves, ∀ (m : Mem) (k : Nat), k < mv.len →
      applyMoves m moves (mv.dst + k) = m (mv.src + k) := by
  intro moves
  induction moves with
  | nil => intro _ mv h; exact absurd h (List.not_mem_nil _)
  | cons h t ih =>
    intro hpw mv hmem m k hk
    rcases List.pairwise_cons.mp hpw with ⟨hhead, htail⟩
    rcases List.mem_cons.mp hmem with heq | hmem'
    · subst heq
      show applyMoves (memmove m mv.src mv.dst mv.len) t (mv.dst + k) = m (mv.src + k)
      rw [applyMoves_of_notin t _ _ (fun v hv => by rcases (hhead v hv).2 with h1 | h2 <;> omega)]
      exact memmove_in hk
    · show applyMoves (memmove m h.src h.dst h.len) t (mv.dst + k) = m (mv.src + k)
      rw [ih htail mv hmem' _ k hk]
      apply memmove_of_notin
      rcases (hhead mv hmem').1 with h1 | h2 <;> omega

theorem roundUp_ge {n a : Nat} (ha : 0 < a) : n ≤ roundUp n a := by
  have h := Nat.lt_div_mul_add (a := n + a - 1) ha
  unfold roundUp
  omega

theorem roundUp_dvd (n a : Nat) : a ∣ roundUp n a := by
  unfold roundUp
  exact dvd_mul_left a _

theorem roundUp_mono {n n' : Nat} (a : Nat) (h : n ≤ n') : roundUp n a ≤ roundUp n' a := by
  unfold roundUp
  exact Nat.mul_le_mul_right a (Nat.div_le_div_right (by omega))

theorem layoutArray_eq_some {f : FieldDesc} {n : Nat} {arr : Layout} :
    layoutArray f n = some arr ↔
      f.size * n ≤ isizeMax - (f.align - 1) ∧ arr = ⟨f.size * n, f.align⟩ := by
  unfold layoutArray
  split
  · rename_i h
    simp only [Option.some.injEq]
    exact ⟨fun he => ⟨h, he.symm⟩, fun hp => hp.2.symm⟩
  · rename_i h
    constructor
    · intro he
      exact absurd he (by simp)
    · intro hp
      exact absurd hp.1 h

theorem layoutExtend_eq_some {l nxt : Layout} {p : Layout × Nat} :
    layoutExtend l nxt = some p ↔
      roundUp l.size nxt.align + nxt.size ≤ isizeMax - (max l.align nxt.align - 1) ∧
        p = (⟨roundUp l.size nxt.align + nxt.size, max l.align nxt.align⟩,
          roundUp l.size nxt.align) := by
  unfold layoutExtend
  split
  · rename_i h
    simp only [Option.some.injEq]
    exact ⟨fun he => ⟨h, he.symm⟩, fun hp => hp.2.symm⟩
  · rename_i h
    constructor
    · intro he
      exact absurd he (by simp)
    · intro hp
      exact absurd hp.1 h

theorem extendU_length : ∀ (fs : List FieldDesc) (l : Layout) (cap : Nat),
    (extendU l cap fs).2.length = fs.length
  | [], _, _ => rfl
  | f :: fs, l, cap => by
    simp only [extendU, List.length_cons]
    rw [extendU_length fs]

theorem extendU_size_ge : ∀ (fs : List FieldDesc) (l : Layout) (cap : Nat),
    (∀ f ∈ fs, 0 < f.align) → l.size ≤ (extendU l cap fs).1.size
  | [], _, _, _ => le_refl _
  | f :: fs, l, cap, hwf => by
    have h1 : l.size ≤ roundUp l.size f.align :=
      roundUp_ge (hwf f (List.mem_cons_self _ _))
    have h2 := extendU_size_ge fs ⟨roundUp l.size f.align + f.size * cap, max l.align f.align⟩
      cap (fun g hg => hwf g (List.mem_cons_of_mem _ hg))
    dsimp only at h2
    simp only [extendU]
    omega

theorem extendU_align_ge : ∀ (fs : List FieldDesc) (l : Layout) (cap : Nat),
    l.align ≤ (extendU l cap fs).1.align
  | [], _, _ => le_refl _
  | f :: fs, l, cap => by
    have h := extendU_align_ge fs ⟨roundUp l.size f.align + f.size * cap, max l.align f.align⟩ cap
    simp only [extendU] at h ⊢
    omega

theorem extendU_align_le : ∀ (fs : List FieldDesc) (l : Layout) (cap : Nat),
    ∀ g ∈ fs, g.align ≤ (extendU l cap fs).1.align
  | f :: fs, l, cap, g, hg => by
    have hrec := extendU_align_ge fs ⟨roundUp l.size f.align + f.size * cap, max l.align f.align⟩ cap
    rcases List.mem_cons.mp hg with heq | hmem
    · subst heq
      simp only [extendU]
      simp only [Layout.align] at hrec ⊢
      omega
    · exact extendU_align_le fs _ cap g hmem

theorem extendU_align_mem : ∀ (fs : List FieldDesc) (l : Layout) (cap : Nat),
    (extendU l cap fs).1.align = l.align ∨ (extendU l cap fs).1.align ∈ fs.map FieldDesc.align
  | [], _, _ => Or.inl rfl
  | f :: fs, l, cap => by
    have hrec := extendU_align_mem fs ⟨roundUp l.size f.align + f.size * cap, max l.align f.align⟩ cap
    simp only [extendU, List.map_cons]
    rcases hrec with heq | hmem
    · rw [heq]
      rcases Nat.le_total l.align f.align with h | h
      · right
        rw [Nat.max_eq_right h]
        exact List.mem_cons_self _ _
      · left
        exact Nat.max_eq_left h
    · right
      exact List.mem_cons_of_mem _ hmem

theorem extendU_all_ge : ∀ (fs : List FieldDesc) (l : Layout) (cap : Nat),
    (∀ f ∈ fs, 0 < f.align) → ∀ i, i < fs.length → l.size ≤ (extendU l cap fs).2.getD i 0
  | [], _, _, _, i, hi => absurd hi (by simp)
  | f :: fs, l, cap, hwf, 0, _ => by
    simp only [extendU, List.getD_cons_zero]
    exact roundUp_ge (hwf f (List.mem_cons_self _ _))
  | f :: fs, l, cap, hwf, i + 1, hi => by
    have hrec := extendU_all_ge fs ⟨roundUp l.size f.align + f.size * cap, max l.align f.align⟩
      cap (fun g hg => hwf g (List.mem_cons_of_mem _ hg)) i (by simpa using hi)
    have h1 : l.size ≤ roundUp l.size f.align :=
      roundUp_ge (hwf f (List.mem_cons_self _ _))
    simp only [extendU, List.getD_cons_succ]
    simp only [Layout.size] at hrec
    omega

theorem extendU_gap : ∀ (fs : List FieldDesc) (l : Layout) (cap : Nat),
    (∀ f ∈ fs, 0 < f.align) → ∀ i j, i < j → j < fs.length →
    (extendU l cap fs).2.getD i 0 + (fs.getD i default).size * cap ≤
      (extendU l cap fs).2.getD j 0
  | [], _, _, _, _, j, _, hj => absurd hj (by simp)
  | f :: fs, l, cap, hwf, 0, j + 1, _, hj => by
    have hrec := extendU_all_ge fs ⟨roundUp l.size f.align + f.size * cap, max l.align f.align⟩
      cap (fun g hg => hwf g (List.mem_cons_of_mem _ hg)) j (by simpa using hj)
    simp only [extendU, List.getD_cons_zero, List.getD_cons_succ]
    simp only [Layout.size] at hrec
    exact hrec
  | f :: fs, l, cap, hwf, i + 1, j + 1, hij, hj =>
    extendU_gap fs ⟨roundUp l.size f.align + f.size * cap, max l.align f.align⟩ cap
      (fun g hg => hwf g (List.mem_cons_of_mem _ hg)) i j (by omega) (by simpa using hj)

theorem extendU_bound : ∀ (fs : List FieldDesc) (l : Layout) (cap : Nat),
    (∀ f ∈ fs, 0 < f.align) → ∀ i, i < fs.length →
    (extendU l cap fs).2.getD i 0 + (fs.getD i default).size * cap ≤ (extendU l cap fs).1.size
  | [], _, _, _, _, hi => absurd hi (by simp)
  | f :: fs, l, cap, hwf, 0, _ => by
    have hrec := extendU_size_ge fs ⟨roundUp l.size f.align + f.size * cap, max l.align f.align⟩
      cap (fun g hg => hwf g (List.mem_cons_of_mem _ hg))
    simp only [extendU, List.getD_cons_zero]
    simp only [Layout.size] at hrec
    exact hrec
  | f :: fs, l, cap, hwf, i + 1, hi => by
    have hrec := extendU_bound fs ⟨roundUp l.size f.align + f.size * cap, max l.align f.align⟩
      cap (fun g hg => hwf g (List.mem_cons_of_mem _ hg)) i (by simpa using hi)
    simpa only [extendU, List.getD_cons_succ] using hrec

theorem extendU_align_dvd : ∀ (fs : List FieldDesc) (l : Layout) (cap : Nat),
    ∀ i, i < fs.length → (fs.getD i default).align ∣ (extendU l cap fs).2.getD i 0
  | [], _, _, _, hi => absurd hi (by simp)
  | f :: fs, l, cap, 0, _ => by
    simp only [extendU, List.getD_cons_zero]
    exact roundUp_dvd l.size f.align
  | f :: fs, l, cap, i + 1, hi => by
    have hrec := extendU_align_dvd fs ⟨roundUp l.size f.align + f.size * cap, max l.align f.align⟩
      cap i (by simpa using hi)
    simpa only [extendU, List.getD_cons_succ] using hrec

theorem extendU_mono : ∀ (fs : List FieldDesc) (lA lB : Layout) (capA capB : Nat),
    capA ≤ capB → lA.size ≤ lB.size →
    (∀ i, (extendU lA capA fs).2.getD i 0 ≤ (extendU lB capB fs).2.getD i 0) ∧
      (extendU lA capA fs).1.size ≤ (extendU lB capB fs).1.size
  | [], _, _, _, _, _, hl => ⟨fun i => by simp [extendU], hl⟩
  | f :: fs, lA, lB, capA, capB, hc, hl => by
    have hoff : roundUp lA.size f.align ≤ roundUp lB.size f.align := roundUp_mono f.align hl
    have hsz : roundUp lA.size f.align + f.size * capA ≤ roundUp lB.size f.align + f.size * capB :=
      Nat.add_le_add hoff (Nat.mul_le_mul_left f.size hc)
    have hrec := extendU_mono fs ⟨roundUp lA.size f.align + f.size * capA, max lA.align f.align⟩
      ⟨roundUp lB.size f.align + f.size * capB, max lB.align f.align⟩ capA capB hc hsz
    refine ⟨fun i => ?_, by simpa only [extendU] using hrec.2⟩
    match i with
    | 0 => simpa only [extendU, List.getD_cons_zero] using hoff
    | i + 1 => simpa only [extendU, List.getD_cons_succ] using hrec.1 i

theorem extendU_size_last : ∀ (fs : List FieldDesc) (l : Layout) (cap : Nat), fs ≠ [] →
    (extendU l cap fs).1.size =
      (extendU l cap fs).2.getD (fs.length - 1) 0 + (fs.getD (fs.length - 1) default).size * cap
  | [], _, _, h => absurd rfl h
  | [f], l, cap, _ => by simp [extendU]
  | f :: g :: fs, l, cap, _ => by
    have hrec := extendU_size_last (g :: fs)
      ⟨roundUp l.size f.align + f.size * cap, max l.align f.align⟩ cap (by simp)
    simp only [extendU, List.length_cons, Nat.add_sub_cancel] at hrec ⊢
    rw [List.getD_cons_succ, List.getD_cons_succ]
    exact hrec

theorem extendAll_eq_extendU : ∀ (fs : List FieldDesc) (l : Layout) (cap : Nat)
    (p : Layout × List Nat), extendAll l cap fs = some p → p = extendU l cap fs
  | [], _, _, p, h => by
    simp only [extendAll, Option.some.injEq] at h
    simp [extendU, ← h]
  | f :: fs, l, cap, p, h => by
    simp only [extendAll] at h
    cases hArr : layoutArray f cap with
    | none => rw [hArr] at h; exact absurd h (by simp)
    | some arr =>
      rw [hArr] at h
      dsimp only at h
      cases hExt : layoutExtend l arr with
      | none => rw [hExt] at h; exact absurd h (by simp)
      | some q =>
        rw [hExt] at h
        obtain ⟨l2, offset⟩ := q
        dsimp only at h
        cases hRec : extendAll l2 cap fs with
        | none => rw [hRec] at h; exact absurd h (by simp)
        | some r =>
          rw [hRec] at h
          obtain ⟨lf, offsets⟩ := r
          dsimp only at h
          simp only [Option.some.injEq] at h
          obtain ⟨harr_le, harr⟩ := layoutArray_eq_some.mp hArr
          obtain ⟨hext_le, hext⟩ := layoutExtend_eq_some.mp hExt
          subst harr
          have hq := extendAll_eq_extendU fs l2 cap (lf, offsets) hRec
          simp only [Prod.mk.injEq] at hext
          obtain ⟨hl2, hoff⟩ := hext
          subst hl2 hoff
          rw [← h, extendU]
          rw [← hq]

theorem extendAll_size_bound : ∀ (fs : List FieldDesc) (l : Layout) (cap : Nat)
    (lf : Layout) (offs : List Nat), extendAll l cap fs = some (lf, offs) →
    l.size ≤ isizeMax - (l.align - 1) → lf.size ≤ isizeMax - (lf.align - 1)
  | [], l, cap, lf, offs, h, hl => by
    simp only [extendAll, Option.some.injEq, Prod.mk.injEq] at h
    rw [← h.1]
    exact hl
  | f :: fs, l, cap, lf, offs, h, hl => by
    simp only [extendAll] at h
    cases hArr : layoutArray f cap with
    | none => rw [hArr] at h; exact absurd h (by simp)
    | some arr =>
      rw [hArr] at h
      dsimp only at h
      cases hExt : layoutExtend l arr with
      | none => rw [hExt] at h; exact absurd h (by simp)
      | some q =>
        rw [hExt] at h
        obtain ⟨l2, offset⟩ := q
        dsimp only at h
        cases hRec : extendAll l2 cap fs with
        | none => rw [hRec] at h; exact absurd h (by simp)
        | some r =>
          rw [hRec] at h
          obtain ⟨lf2, offsets⟩ := r
          dsimp only at h
          simp only [Option.some.injEq, Prod.mk.injEq] at h
          obtain ⟨hext_le, hext⟩ := layoutExtend_eq_some.mp hExt
          simp only [Prod.mk.injEq] at hext
          obtain ⟨hl2, _⟩ := hext
          have := extendAll_size_bound fs l2 cap lf2 offsets hRec (by rw [hl2]; exact hext_le)
          rw [← h.1]
          exact this


theorem pair_eq_parts {α β : Type} {a : α} {b : β} {p : α × β} (h : (a, b) = p) :
    a = p.1 ∧ b = p.2 := by
  cases h
  exact ⟨rfl, rfl⟩

/-- On success the checked layout computation returns exactly the ideal
(arbitrary-precision) layout and offsets: no wrapping or truncation ever
reaches the result. -/
theorem layout_and_offsets_eq {f : FieldDesc} {fs : List FieldDesc} {cap : Nat}
    {p : Layout × List Nat} (h : layout_and_offsets (f :: fs) cap = some p) :
    p = layoutU f cap fs ∧ f.size * cap ≤ isizeMax - (f.align - 1) := by
  simp only [layout_and_offsets] at h
  cases hArr : layoutArray f cap with
  | none => rw [hArr] at h; exact absurd h (by simp)
  | some l0 =>
    rw [hArr] at h
    dsimp only at h
    obtain ⟨hbound, hl0⟩ := layoutArray_eq_some.mp hArr
    subst hl0
    exact ⟨extendAll_eq_extendU fs _ cap p h, hbound⟩

/-- On success the final layout size respects the `isize::MAX` bound checked
by the last `Layout` constructor call. -/
theorem layout_and_offsets_size_le {f : FieldDesc} {fs : List FieldDesc} {cap : Nat}
    {l : Layout} {offs : List Nat} (h : layout_and_offsets (f :: fs) cap = some (l, offs)) :
    l.size ≤ isizeMax - (l.align - 1) := by
  simp only [layout_and_offsets] at h
  cases hArr : layoutArray f cap with
  | none => rw [hArr] at h; exact absurd h (by simp)
  | some l0 =>
    rw [hArr] at h
    dsimp only at h
    obtain ⟨hbound, hl0⟩ := layoutArray_eq_some.mp hArr
    exact extendAll_size_bound fs l0 cap l offs h (by rw [hl0]; exact hbound)

theorem layout_and_offsets_length {f : FieldDesc} {fs : List FieldDesc} {cap : Nat}
    {l : Layout} {offs : List Nat} (h : layout_and_offsets (f :: fs) cap = some (l, offs)) :
    offs.length = fs.length := by
  have h0 := (layout_and_offsets_eq h).1
  simp only [layoutU] at h0
  have h1 := pair_eq_parts h0
  rw [h1.2, extendU_length]

/-- Non-overlap of consecutive field arrays, stated on the full offset list
`0 :: offs` (the head field sits at offset `0`): between any two fields, the
earlier field's whole `cap`-element array ends at or before the later field's
offset. -/
theorem offsets_gap {f : FieldDesc} {fs : List FieldDesc} {cap : Nat}
    {l : Layout} {offs : List Nat} (h : layout_and_offsets (f :: fs) cap = some (l, offs))
    (hwf : ∀ g ∈ f :: fs, 0 < g.align) :
    ∀ i j, i < j → j < fs.length + 1 →
      (0 :: offs).getD i 0 + ((f :: fs).getD i default).size * cap ≤ (0 :: offs).getD j 0 := by
  have heq0 := (layout_and_offsets_eq h).1
  simp only [layoutU] at heq0
  have heq := pair_eq_parts heq0
  have hwf2 : ∀ g ∈ fs, 0 < g.align := fun g hg => hwf g (List.mem_cons_of_mem _ hg)
  intro i j hij hj
  match i, j with
  | 0, j + 1 =>
    have := extendU_all_ge fs ⟨f.size * cap, f.align⟩ cap hwf2 j (by omega)
    dsimp only at this
    rw [heq.2]
    simpa using this
  | i + 1, j + 1 =>
    have := extendU_gap fs ⟨f.size * cap, f.align⟩ cap hwf2 i j (by omega) (by omega)
    rw [heq.2]
    simpa using this

/-- Every field's whole array fits below the computed total size. -/
theorem offsets_bound {f : FieldDesc} {fs : List FieldDesc} {cap : Nat}
    {l : Layout} {offs : List Nat} (h : layout_and_offsets (f :: fs) cap = some (l, offs))
    (hwf : ∀ g ∈ f :: fs, 0 < g.align) :
    ∀ i, i < fs.length + 1 →
      (0 :: offs).getD i 0 + ((f :: fs).getD i default).size * cap ≤ l.size := by
  have heq0 := (layout_and_offsets_eq h).1
  simp only [layoutU] at heq0
  have heq := pair_eq_parts heq0
  have hwf2 : ∀ g ∈ fs, 0 < g.align := fun g hg => hwf g (List.mem_cons_of_mem _ hg)
  intro i hi
  match i with
  | 0 =>
    have := extendU_size_ge fs ⟨f.size * cap, f.align⟩ cap hwf2
    dsimp only at this
    rw [heq.1, heq.2]
    simpa using this
  | i + 1 =>
    have := extendU_bound fs ⟨f.size * cap, f.align⟩ cap hwf2 i (by omega)
    rw [heq.1, heq.2]
    simpa using this

/-- Every field's offset is aligned to that field's alignment. -/
theorem offsets_aligned {f : FieldDesc} {fs : List FieldDesc} {cap : Nat}
    {l : Layout} {offs : List Nat} (h : layout_and_offsets (f :: fs) cap = some (l, offs)) :
    ∀ i, i < fs.length + 1 →
      ((f :: fs).getD i default).align ∣ (0 :: offs).getD i 0 := by
  have heq0 := (layout_and_offsets_eq h).1
  simp only [layoutU] at heq0
  have heq := pair_eq_parts heq0
  intro i hi
  match i with
  | 0 => simp
  | i + 1 =>
    have := extendU_align_dvd fs ⟨f.size * cap, f.align⟩ cap i (by omega)
    rw [heq.2]
    simpa using this

/-- Growing the capacity never decreases any field's offset. -/
theorem offsets_mono {f : FieldDesc} {fs : List FieldDesc} {capA capB : Nat}
    {lA lB : Layout} {offsA offsB : List Nat}
    (hA : layout_and_offsets (f :: fs) capA = some (lA, offsA))
    (hB : layout_and_offsets (f :: fs) capB = some (lB, offsB))
    (hc : capA ≤ capB) :
    ∀ i, (0 :: offsA).getD i 0 ≤ (0 :: offsB).getD i 0 := by
  have heqA0 := (layout_and_offsets_eq hA).1
  have heqB0 := (layout_and_offsets_eq hB).1
  simp only [layoutU] at heqA0 heqB0
  have heqA := pair_eq_parts heqA0
  have heqB := pair_eq_parts heqB0
  intro i
  match i with
  | 0 => simp
  | i + 1 =>
    have := (extendU_mono fs ⟨f.size * capA, f.align⟩ ⟨f.size * capB, f.align⟩ capA capB hc
      (by dsimp only; exact Nat.mul_le_mul_left f.size hc)).1 i
    rw [heqA.2, heqB.2]
    simpa using this

/-- Claim C2: for every field-descriptor list and capacity on which
`layout_and_offsets` succeeds, the plan (read through `with_offsets`, which
places the head field at offset `0` and tail field `i` at `offsets[i]`)
satisfies: the first field's offset is `0`; every field's offset is aligned
to that field's alignment; every field's `cap`-element array ends at or
before `total_size`; and `total_align` is the maximum of the fields'
alignments. -/
theorem layout_plan_invariant {f : FieldDesc} {fs : List FieldDesc} {cap : Nat}
    {l : Layout} {offs : List Nat}
    (h : layout_and_offsets (f :: fs) cap = some (l, offs))
    (hwf : ∀ g ∈ f :: fs, 0 < g.align) :
    (0 :: offs).getD 0 0 = 0 ∧
      (∀ i, i < fs.length + 1 → ((f :: fs).getD i default).align ∣ (0 :: offs).getD i 0) ∧
      (∀ i, i < fs.length + 1 →
        (0 :: offs).getD i 0 + ((f :: fs).getD i default).size * cap ≤ l.size) ∧
      (∀ g ∈ f :: fs, g.align ≤ l.align) ∧ l.align ∈ (f :: fs).map FieldDesc.align := by
  have heq0 := (layout_and_offsets_eq h).1
  simp only [layoutU] at heq0
  have heq := pair_eq_parts heq0
  refine ⟨rfl, offsets_aligned h, offsets_bound h hwf, ?_, ?_⟩
  · intro g hg
    rw [heq.1]
    rcases List.mem_cons.mp hg with hgf | hmem
    · subst hgf
      have := extendU_align_ge fs ⟨g.size * cap, g.align⟩ cap
      simpa using this
    · exact extendU_align_le fs ⟨f.size * cap, f.align⟩ cap g hmem
  · rw [heq.1]
    rcases extendU_align_mem fs ⟨f.size * cap, f.align⟩ cap with hl | hmem
    · rw [hl]
      dsimp only
      simp
    · simp only [List.map_cons, List.mem_cons]
      right
      exact hmem

/-- Witness for `layout_plan_invariant` at the three-field descriptor list of
the spec's concrete scenario, capacity 4. -/
theorem layout_plan_invariant_witness :
    (0 :: [16, 24]).getD 0 0 = 0 ∧
      (∀ i, i < [(⟨1, 1⟩ : FieldDesc), ⟨8, 8⟩].length + 1 →
        (([⟨4, 4⟩, ⟨1, 1⟩, ⟨8, 8⟩] : List FieldDesc).getD i default).align ∣
          (0 :: [16, 24]).getD i 0) ∧
      (∀ i, i < [(⟨1, 1⟩ : FieldDesc), ⟨8, 8⟩].length + 1 →
        (0 :: [16, 24]).getD i 0 +
          (([⟨4, 4⟩, ⟨1, 1⟩, ⟨8, 8⟩] : List FieldDesc).getD i default).size * 4 ≤
          (⟨56, 8⟩ : Layout).size) ∧
      (∀ g ∈ ([⟨4, 4⟩, ⟨1, 1⟩, ⟨8, 8⟩] : List FieldDesc), g.align ≤ (⟨56, 8⟩ : Layout).align) ∧
      (⟨56, 8⟩ : Layout).align ∈ ([⟨4, 4⟩, ⟨1, 1⟩, ⟨8, 8⟩] : List FieldDesc).map FieldDesc.align :=
  @layout_plan_invariant ⟨4, 4⟩ [⟨1, 1⟩, ⟨8, 8⟩] 4 ⟨56, 8⟩ [16, 24] (by decide) (by decide)

/-- Claim C3: growing the capacity never decreases any field's byte offset
(equivalently, shrinking never increases it): if the layout computation
succeeds at capacities `capA ≤ capB`, then field `i`'s offset at `capA` is at
most its offset at `capB`. -/
theorem offset_monotone {f : FieldDesc} {fs : List FieldDesc} {capA capB : Nat}
    {lA lB : Layout} {offsA offsB : List Nat}
    (hA : layout_and_offsets (f :: fs) capA = some (lA, offsA))
    (hB : layout_and_offsets (f :: fs) capB = some (lB, offsB))
    (hc : capA ≤ capB) :
    ∀ i, (0 :: offsA).getD i 0 ≤ (0 :: offsB).getD i 0 :=
  offsets_mono hA hB hc

/-- Witness for `offset_monotone`: two fields at capacities 2 and 4, second
field's offset. -/
theorem offset_monotone_witness :
    ((0 : Nat) :: [2]).getD 1 0 ≤ ((0 : Nat) :: [4]).getD 1 0 :=
  @offset_monotone ⟨1, 1⟩ [⟨2, 2⟩] 2 4 ⟨6, 2⟩ ⟨12, 2⟩ [2] [4] (by decide) (by decide) (by decide) 1

/-- Counterexample to claim C6: for the two-field list `{4,4}, {1,1}` at
capacity 1 the computed total size is 5 with total alignment 4, and 5 is not
a multiple of 4: `layout_and_offsets` performs no trailing padding. -/
theorem total_size_padding_counterexample :
    layout_and_offsets [⟨4, 4⟩, ⟨1, 1⟩] 1 = some (⟨5, 4⟩, [4]) ∧ ¬ (4 ∣ 5) := by
  constructor
  · decide
  · decide

/-- Amended claim C6: the total size produced by the layout computation is
the final running size with no trailing padding: it equals the last field's
offset plus the last field's array size (and is therefore not in general a
multiple of the total alignment). -/
theorem total_size_no_padding {f : FieldDesc} {fs : List FieldDesc} {cap : Nat}
    {l : Layout} {offs : List Nat}
    (h : layout_and_offsets (f :: fs) cap = some (l, offs)) :
    l.size = (0 :: offs).getD ((f :: fs).length - 1) 0 +
      ((f :: fs).getD ((f :: fs).length - 1) default).size * cap := by
  have heq0 := (layout_and_offsets_eq h).1
  simp only [layoutU] at heq0
  have heq := pair_eq_parts heq0
  cases fs with
  | nil =>
    rw [heq.1]
    simp [extendU]
  | cons g gs =>
    have hlast := extendU_size_last (g :: gs) ⟨f.size * cap, f.align⟩ cap (by simp)
    rw [heq.1, heq.2]
    simp only [List.length_cons, Nat.add_sub_cancel] at hlast ⊢
    rw [List.getD_cons_succ, List.getD_cons_succ]
    exact hlast

/-- Witness for `total_size_no_padding` at the counterexample's input. -/
theorem total_size_no_padding_witness :
    (⟨5, 4⟩ : Layout).size =
      ((0 : Nat) :: [4]).getD (([(⟨4, 4⟩ : FieldDesc), ⟨1, 1⟩]).length - 1) 0 +
      (([(⟨4, 4⟩ : FieldDesc), ⟨1, 1⟩]).getD (([(⟨4, 4⟩ : FieldDesc), ⟨1, 1⟩]).length - 1)
        default).size * 1 :=
  @total_size_no_padding ⟨4, 4⟩ [⟨1, 1⟩] 1 ⟨5, 4⟩ [4] (by decide)

/-- Claim C7: the spec's concrete scenario.  For the three-field list
`{4,4}, {1,1}, {8,8}` at capacity 4 the plan places field 0 at block offset
0, field 1 at 16 and field 2 at 24, with total size 56 and alignment 8 (56
a multiple of 8), and the storage built by `with_offsets` over any block
address has bases `ptr`, `ptr + 16`, `ptr + 24`. -/
theorem concrete_layout_scenario :
    layout_and_offsets [⟨4, 4⟩, ⟨1, 1⟩, ⟨8, 8⟩] 4 = some (⟨56, 8⟩, [16, 24]) ∧
      (∀ ptr : Nat, with_offsets ptr (0 :: [16, 24]) = [ptr, ptr + 16, ptr + 24]) ∧
      56 % 8 = 0 := by
  refine ⟨by decide, ?_, by decide⟩
  intro ptr
  simp [with_offsets]

/-- Claim C8: overflow handling.  First, whenever the checked layout
computation succeeds it returns exactly the ideal arbitrary-precision layout,
whose size then respects `isize::MAX` (the arithmetic is never wrapped or
truncated).  Second, whenever the ideal layout for the requested capacity
exceeds the representable bound, `layout_and_offsets` fails, and `alloc`
rejects the request before consulting any allocator: `alloc` is `none` for
every allocator function `A`. -/
theorem overflow_checked {f : FieldDesc} {fs : List FieldDesc} {cap : Nat} :
    (∀ l offs, layout_and_offsets (f :: fs) cap = some (l, offs) →
      (l, offs) = layoutU f cap fs ∧ l.size ≤ isizeMax) ∧
    (isizeMax - ((layoutU f cap fs).1.align - 1) < (layoutU f cap fs).1.size →
      layout_and_offsets (f :: fs) cap = none ∧
        ∀ A : Layout → Nat, alloc A (f :: fs) cap = none) := by
  constructor
  · intro l offs h
    exact ⟨(layout_and_offsets_eq h).1,
      le_trans (layout_and_offsets_size_le h) (Nat.sub_le _ _)⟩
  · intro hover
    have hnone : layout_and_offsets (f :: fs) cap = none := by
      cases hl : layout_and_offsets (f :: fs) cap with
      | none => rfl
      | some p =>
        obtain ⟨l, offs⟩ := p
        have heq := pair_eq_parts (layout_and_offsets_eq hl).1
        have hle := layout_and_offsets_size_le hl
        rw [heq.1] at hle
        exact absurd hle (by omega)
    refine ⟨hnone, fun A => ?_⟩
    simp [alloc, hnone]

/-- Witness for `overflow_checked`: a single one-byte field at capacity
`2 ^ 63` overflows `isize::MAX`, so the layout computation and `alloc` both
fail, for every allocator. -/
theorem overflow_checked_witness :
    layout_and_offsets [(⟨1, 1⟩ : FieldDesc)] (2 ^ 63) = none ∧
      ∀ A : Layout → Nat, alloc A [(⟨1, 1⟩ : FieldDesc)] (2 ^ 63) = none :=
  (@overflow_checked ⟨1, 1⟩ [] (2 ^ 63)).2 (by decide)

/-- Claim C10: for a storage laid out over block address `ptr` at a capacity
whose layout computation succeeds, `as_ptr` returns the block address itself
(the head field sits at byte offset 0 of the allocation), and
`from_parts(as_ptr(s), cap)` rebuilds a storage with exactly the same
per-field base pointers. -/
theorem from_parts_as_ptr_roundtrip {f : FieldDesc} {fs : List FieldDesc} {cap : Nat}
    {l : Layout} {offs : List Nat}
    (h : layout_and_offsets (f :: fs) cap = some (l, offs)) (ptr : Nat) :
    as_ptr (with_offsets ptr (0 :: offs)) = ptr ∧
      from_parts (f :: fs) (as_ptr (with_offsets ptr (0 :: offs))) cap =
        some (with_offsets ptr (0 :: offs)) := by
  have hp : as_ptr (with_offsets ptr (0 :: offs)) = ptr := by
    simp [as_ptr, with_offsets]
  refine ⟨hp, ?_⟩
  rw [hp]
  simp [from_parts, h]

/-- Witness for `from_parts_as_ptr_roundtrip` at the concrete three-field
scenario, block address 1000. -/
theorem from_parts_as_ptr_roundtrip_witness :
    as_ptr (with_offsets 1000 (0 :: [16, 24])) = 1000 ∧
      from_parts [⟨4, 4⟩, ⟨1, 1⟩, ⟨8, 8⟩] (as_ptr (with_offsets 1000 (0 :: [16, 24]))) 4 =
        some (with_offsets 1000 (0 :: [16, 24])) :=
  @from_parts_as_ptr_roundtrip ⟨4, 4⟩ [⟨1, 1⟩, ⟨8, 8⟩] 4 ⟨56, 8⟩ [16, 24] (by decide) 1000

instance : Inhabited Move := ⟨⟨0, 0, 0⟩⟩

theorem fieldMoves_zip_length {gs : List FieldDesc} {oA oB : List Nat} {ptr L : Nat}
    (hA : oA.length = gs.length) (hB : oB.length = gs.length) :
    (fieldMoves ptr L (gs.zip (oA.zip oB))).length = gs.length := by
  simp [fieldMoves, hA, hB]

theorem fieldMoves_zip_getElem {gs : List FieldDesc} {oA oB : List Nat} {ptr L i : Nat}
    (hA : oA.length = gs.length) (hB : oB.length = gs.length) (hi : i < gs.length)
    (hi2 : i < (fieldMoves ptr L (gs.zip (oA.zip oB))).length) :
    (fieldMoves ptr L (gs.zip (oA.zip oB)))[i] =
      ⟨ptr + oA.getD i 0, ptr + oB.getD i 0, L * (gs.getD i default).size⟩ := by
  have hiA : i < oA.length := by omega
  have hiB : i < oB.length := by omega
  simp only [fieldMoves, List.getElem_map, List.getElem_zip]
  rw [List.getD_eq_getElem oA 0 hiA, List.getD_eq_getElem oB 0 hiB,
    List.getD_eq_getElem gs default hi]

/-- Relocation in reverse declaration order (as `realloc_grow` performs it)
reads back correctly provided every earlier field's `L`-element source region
ends at or before every later field's destination offset, and destination
offsets keep the same separation.  These are exactly the facts provided by
offset monotonicity in capacity plus the array gaps. -/
theorem fieldMoves_reverse_read {gs : List FieldDesc} {oA oB : List Nat} {ptr L : Nat}
    (hA : oA.length = gs.length) (hB : oB.length = gs.length)
    (hAB : ∀ p q, p < q → q < gs.length →
      oA.getD p 0 + L * (gs.getD p default).size ≤ oB.getD q 0)
    (hBB : ∀ p q, p < q → q < gs.length →
      oB.getD p 0 + L * (gs.getD p default).size ≤ oB.getD q 0) :
    ∀ (m : Mem) (i : Nat), i < gs.length → ∀ k, k < L * (gs.getD i default).size →
      applyMoves m (fieldMoves ptr L (gs.zip (oA.zip oB))).reverse (ptr + oB.getD i 0 + k) =
        m (ptr + oA.getD i 0 + k) := by
  intro m i hi k hk
  have hlen := @fieldMoves_zip_length gs oA oB ptr L hA hB
  have hpw : (fieldMoves ptr L (gs.zip (oA.zip oB))).reverse.Pairwise (fun u v =>
      (u.dst + u.len ≤ v.src ∨ v.src + v.len ≤ u.dst) ∧
      (u.dst + u.len ≤ v.dst ∨ v.dst + v.len ≤ u.dst)) := by
    rw [List.pairwise_reverse, List.pairwise_iff_getElem]
    intro p q hp hq hpq
    rw [fieldMoves_zip_getElem hA hB (by omega) hp, fieldMoves_zip_getElem hA hB (by omega) hq]
    have h1 := hAB p q hpq (by omega)
    have h2 := hBB p q hpq (by omega)
    exact ⟨Or.inr (by dsimp only; omega), Or.inr (by dsimp only; omega)⟩
  have hmem : (⟨ptr + oA.getD i 0, ptr + oB.getD i 0, L * (gs.getD i default).size⟩ : Move) ∈
      (fieldMoves ptr L (gs.zip (oA.zip oB))).reverse := by
    rw [List.mem_reverse, ← fieldMoves_zip_getElem hA hB hi (by omega)]
    exact List.getElem_mem _
  have hread := applyMoves_read _ hpw _ hmem m k hk
  simpa using hread

/-- Relocation in forward declaration order (as `realloc_shrink` performs it)
reads back correctly provided every earlier field's `L`-element destination
region ends at or before every later field's source offset, and destination
offsets keep the same separation. -/
theorem fieldMoves_forward_read {gs : List FieldDesc} {oA oB : List Nat} {ptr L : Nat}
    (hA : oA.length = gs.length) (hB : oB.length = gs.length)
    (hBA : ∀ p q, p < q → q < gs.length →
      oB.getD p 0 + L * (gs.getD p default).size ≤ oA.getD q 0)
    (hBB : ∀ p q, p < q → q < gs.length →
      oB.getD p 0 + L * (gs.getD p default).size ≤ oB.getD q 0) :
    ∀ (m : Mem) (i : Nat), i < gs.length → ∀ k, k < L * (gs.getD i default).size →
      applyMoves m (fieldMoves ptr L (gs.zip (oA.zip oB))) (ptr + oB.getD i 0 + k) =
        m (ptr + oA.getD i 0 + k) := by
  intro m i hi k hk
  have hlen := @fieldMoves_zip_length gs oA oB ptr L hA hB
  have hpw : (fieldMoves ptr L (gs.zip (oA.zip oB))).Pairwise (fun u v =>
      (u.dst + u.len ≤ v.src ∨ v.src + v.len ≤ u.dst) ∧
      (u.dst + u.len ≤ v.dst ∨ v.dst + v.len ≤ u.dst)) := by
    rw [List.pairwise_iff_getElem]
    intro p q hp hq hpq
    rw [fieldMoves_zip_getElem hA hB (by omega) hp, fieldMoves_zip_getElem hA hB (by omega) hq]
    have h1 := hBA p q hpq (by omega)
    have h2 := hBB p q hpq (by omega)
    exact ⟨Or.inl (by dsimp only; omega), Or.inl (by dsimp only; omega)⟩
  have hmem : (⟨ptr + oA.getD i 0, ptr + oB.getD i 0, L * (gs.getD i default).size⟩ : Move) ∈
      fieldMoves ptr L (gs.zip (oA.zip oB)) := by
    rw [← fieldMoves_zip_getElem hA hB hi (by omega)]
    exact List.getElem_mem _
  have hread := applyMoves_read _ hpw _ hmem m k hk
  simpa using hread

/-- The reverse-declaration-order relocation of `realloc_grow` preserves the
first `L` elements of every field: after growing from `capOld` to `capNew`,
reading element `j < L` of field `i` at its new offset returns exactly the
bytes that element had at its old offset before the grow. -/
theorem realloc_grow_preserves {f : FieldDesc} {fs : List FieldDesc}
    {capOld capNew L ptr : Nat} {m mOut : Mem} {lO lN : Layout} {offsO offsN : List Nat}
    (hO : layout_and_offsets (f :: fs) capOld = some (lO, offsO))
    (hN : layout_and_offsets (f :: fs) capNew = some (lN, offsN))
    (hwf : ∀ g ∈ f :: fs, 0 < g.align)
    (hc : capOld ≤ capNew) (hL : L ≤ capOld)
    (hg : realloc_grow (f :: fs) ptr capOld capNew L m = some mOut) :
    ∀ i, i < fs.length + 1 → ∀ j, j < L →
      readElem mOut ptr ((0 :: offsN).getD i 0) ((f :: fs).getD i default).size j =
        readElem m ptr ((0 :: offsO).getD i 0) ((f :: fs).getD i default).size j := by
  intro i hi j hj
  simp only [realloc_grow, hN, hO] at hg
  have hmOut : mOut =
      applyMoves m (fieldMoves ptr L
        ((f :: fs).zip (((0 : Nat) :: offsO).zip ((0 : Nat) :: offsN)))).reverse := by
    simpa using hg.symm
  subst hmOut
  have hlO := layout_and_offsets_length hO
  have hlN := layout_and_offsets_length hN
  have hA : ((0 : Nat) :: offsO).length = (f :: fs).length := by simp [hlO]
  have hB : ((0 : Nat) :: offsN).length = (f :: fs).length := by simp [hlN]
  have hAB : ∀ p q, p < q → q < (f :: fs).length →
      ((0 : Nat) :: offsO).getD p 0 + L * ((f :: fs).getD p default).size ≤
        ((0 : Nat) :: offsN).getD q 0 := by
    intro p q hpq hq
    have hgap := offsets_gap hO hwf p q hpq (by simpa using hq)
    have hm := offsets_mono hO hN hc q
    have hmul : ((f :: fs).getD p default).size * L ≤ ((f :: fs).getD p default).size * capOld :=
      Nat.mul_le_mul_left _ hL
    rw [Nat.mul_comm L]
    omega
  have hBB : ∀ p q, p < q → q < (f :: fs).length →
      ((0 : Nat) :: offsN).getD p 0 + L * ((f :: fs).getD p default).size ≤
        ((0 : Nat) :: offsN).getD q 0 := by
    intro p q hpq hq
    have hgap := offsets_gap hN hwf p q hpq (by simpa using hq)
    have hmul : ((f :: fs).getD p default).size * L ≤ ((f :: fs).getD p default).size * capNew :=
      Nat.mul_le_mul_left _ (by omega)
    rw [Nat.mul_comm L]
    omega
  simp only [readElem]
  apply readBytes_congr
  intro k hks
  have hlt : j * ((f :: fs).getD i default).size + k < L * ((f :: fs).getD i default).size := by
    have h1 : (j + 1) * ((f :: fs).getD i default).size ≤ L * ((f :: fs).getD i default).size :=
      Nat.mul_le_mul_right _ (by omega)
    have h2 : (j + 1) * ((f :: fs).getD i default).size =
        j * ((f :: fs).getD i default).size + ((f :: fs).getD i default).size := by ring
    omega
  have hmain := @fieldMoves_reverse_read (f :: fs) ((0 : Nat) :: offsO) ((0 : Nat) :: offsN)
    ptr L hA hB hAB hBB m i (by simpa using hi)
    (j * ((f :: fs).getD i default).size + k) hlt
  have e1 : ptr + ((0 : Nat) :: offsN).getD i 0 + j * ((f :: fs).getD i default).size + k =
      ptr + ((0 : Nat) :: offsN).getD i 0 + (j * ((f :: fs).getD i default).size + k) := by omega
  have e2 : ptr + ((0 : Nat) :: offsO).getD i 0 + j * ((f :: fs).getD i default).size + k =
      ptr + ((0 : Nat) :: offsO).getD i 0 + (j * ((f :: fs).getD i default).size + k) := by omega
  rw [e1, e2]
  exact hmain

/-- The forward-declaration-order relocation of `realloc_shrink` preserves
the first `L` elements of every field before the block is truncated: after
shrinking from `capOld` down to `capNew`, reading element `j < L` of field
`i` at its new offset returns exactly the bytes that element had at its old
offset before the shrink. -/
theorem realloc_shrink_preserves {f : FieldDesc} {fs : List FieldDesc}
    {capOld capNew L ptr : Nat} {m mOut : Mem} {lO lN : Layout} {offsO offsN : List Nat}
    (hO : layout_and_offsets (f :: fs) capOld = some (lO, offsO))
    (hN : layout_and_offsets (f :: fs) capNew = some (lN, offsN))
    (hwf : ∀ g ∈ f :: fs, 0 < g.align)
    (hc : capNew ≤ capOld) (hL : L ≤ capNew)
    (hs : realloc_shrink (f :: fs) ptr capOld capNew L m = some mOut) :
    ∀ i, i < fs.length + 1 → ∀ j, j < L →
      readElem mOut ptr ((0 :: offsN).getD i 0) ((f :: fs).getD i default).size j =
        readElem m ptr ((0 :: offsO).getD i 0) ((f :: fs).getD i default).size j := by
  intro i hi j hj
  simp only [realloc_shrink, hO, hN] at hs
  have hmOut : mOut =
      applyMoves m (fieldMoves ptr L
        ((f :: fs).zip (((0 : Nat) :: offsO).zip ((0 : Nat) :: offsN)))) := by
    simpa using hs.symm
  subst hmOut
  have hlO := layout_and_offsets_length hO
  have hlN := layout_and_offsets_length hN
  have hA : ((0 : Nat) :: offsO).length = (f :: fs).length := by simp [hlO]
  have hB : ((0 : Nat) :: offsN).length = (f :: fs).length := by simp [hlN]
  have hBA : ∀ p q, p < q → q < (f :: fs).length →
      ((0 : Nat) :: offsN).getD p 0 + L * ((f :: fs).getD p default).size ≤
        ((0 : Nat) :: offsO).getD q 0 := by
    intro p q hpq hq
    have hgap := offsets_gap hN hwf p q hpq (by simpa using hq)
    have hm := offsets_mono hN hO hc q
    have hmul : ((f :: fs).getD p default).size * L ≤ ((f :: fs).getD p default).size * capNew :=
      Nat.mul_le_mul_left _ hL
    rw [Nat.mul_comm L]
    omega
  have hBB : ∀ p q, p < q → q < (f :: fs).length →
      ((0 : Nat) :: offsN).getD p 0 + L * ((f :: fs).getD p default).size ≤
        ((0 : Nat) :: offsN).getD q 0 := by
    intro p q hpq hq
    have hgap := offsets_gap hN hwf p q hpq (by simpa using hq)
    have hmul : ((f :: fs).getD p default).size * L ≤ ((f :: fs).getD p default).size * capNew :=
      Nat.mul_le_mul_left _ hL
    rw [Nat.mul_comm L]
    omega
  simp only [readElem]
  apply readBytes_congr
  intro k hks
  have hlt : j * ((f :: fs).getD i default).size + k < L * ((f :: fs).getD i default).size := by
    have h1 : (j + 1) * ((f :: fs).getD i default).size ≤ L * ((f :: fs).getD i default).size :=
      Nat.mul_le_mul_right _ (by omega)
    have h2 : (j + 1) * ((f :: fs).getD i default).size =
        j * ((f :: fs).getD i default).size + ((f :: fs).getD i default).size := by ring
    omega
  have hmain := @fieldMoves_forward_read (f :: fs) ((0 : Nat) :: offsO) ((0 : Nat) :: offsN)
    ptr L hA hB hBA hBB m i (by simpa using hi)
    (j * ((f :: fs).getD i default).size + k) hlt
  have e1 : ptr + ((0 : Nat) :: offsN).getD i 0 + j * ((f :: fs).getD i default).size + k =
      ptr + ((0 : Nat) :: offsN).getD i 0 + (j * ((f :: fs).getD i default).size + k) := by omega
  have e2 : ptr + ((0 : Nat) :: offsO).getD i 0 + j * ((f :: fs).getD i default).size + k =
      ptr + ((0 : Nat) :: offsO).getD i 0 + (j * ((f :: fs).getD i default).size + k) := by omega
  rw [e1, e2]
  exact hmain

/-- Claim C1: grow/shrink data preservation.  For any field list, block
address and initial contents, a grow from `c0` to `c1` followed by a shrink
from `c1` to `c2`, with `c0 < c1`, `c2 < c1` and `length ≤ min(c0, c1, c2)`,
leaves every element at an index `< length` of every field bit-for-bit
unchanged after each transition: reading it at its post-grow offset (and
then at its post-shrink offset) returns exactly the bytes it had at its
original offset.  The grow (`realloc_grow`) relocates fields in reverse
declaration order, the shrink (`realloc_shrink`) in forward declaration
order before the block is truncated. -/
theorem grow_shrink_data_preservation {f : FieldDesc} {fs : List FieldDesc}
    {c0 c1 c2 L ptr : Nat} {m m1 m2 : Mem}
    {l0 l1 l2 : Layout} {offs0 offs1 offs2 : List Nat}
    (h0 : layout_and_offsets (f :: fs) c0 = some (l0, offs0))
    (h1 : layout_and_offsets (f :: fs) c1 = some (l1, offs1))
    (h2 : layout_and_offsets (f :: fs) c2 = some (l2, offs2))
    (hwf : ∀ g ∈ f :: fs, 0 < g.align)
    (hc01 : c0 < c1) (hc21 : c2 < c1) (hL0 : L ≤ c0) (hL1 : L ≤ c1) (hL2 : L ≤ c2)
    (hg : realloc_grow (f :: fs) ptr c0 c1 L m = some m1)
    (hs : realloc_shrink (f :: fs) ptr c1 c2 L m1 = some m2) :
    ∀ i, i < fs.length + 1 → ∀ j, j < L →
      readElem m1 ptr ((0 :: offs1).getD i 0) ((f :: fs).getD i default).size j =
        readElem m ptr ((0 :: offs0).getD i 0) ((f :: fs).getD i default).size j ∧
      readElem m2 ptr ((0 :: offs2).getD i 0) ((f :: fs).getD i default).size j =
        readElem m ptr ((0 :: offs0).getD i 0) ((f :: fs).getD i default).size j := by
  intro i hi j hj
  have hga := realloc_grow_preserves h0 h1 hwf (Nat.le_of_lt hc01) hL0 hg i hi j hj
  have hsa := realloc_shrink_preserves h1 h2 hwf (Nat.le_of_lt hc21) hL2 hs i hi j hj
  exact ⟨hga, hsa.trans hga⟩

/-- Witness for `grow_shrink_data_preservation`: two fields of sizes 1 and 2,
`allocate(2) -> grow(2,4) -> shrink(4,2)` with `length = 2`, over the
identity-valued initial memory at block address 0; element 1 of field 1 is
read back unchanged after both transitions. -/
theorem grow_shrink_data_preservation_witness :
    readElem (applyMoves (fun a => a)
        (fieldMoves 0 2 (([⟨1, 1⟩, ⟨2, 2⟩] : List FieldDesc).zip
          (((0 : Nat) :: [2]).zip ((0 : Nat) :: [4])))).reverse)
        0 (((0 : Nat) :: [4]).getD 1 0) (([⟨1, 1⟩, ⟨2, 2⟩] : List FieldDesc).getD 1 default).size 1 =
      readElem (fun a => a)
        0 (((0 : Nat) :: [2]).getD 1 0) (([⟨1, 1⟩, ⟨2, 2⟩] : List FieldDesc).getD 1 default).size 1 ∧
    readElem (applyMoves (applyMoves (fun a => a)
        (fieldMoves 0 2 (([⟨1, 1⟩, ⟨2, 2⟩] : List FieldDesc).zip
          (((0 : Nat) :: [2]).zip ((0 : Nat) :: [4])))).reverse)
        (fieldMoves 0 2 (([⟨1, 1⟩, ⟨2, 2⟩] : List FieldDesc).zip
          (((0 : Nat) :: [4]).zip ((0 : Nat) :: [2])))))
        0 (((0 : Nat) :: [2]).getD 1 0) (([⟨1, 1⟩, ⟨2, 2⟩] : List FieldDesc).getD 1 default).size 1 =
      readElem (fun a => a)
        0 (((0 : Nat) :: [2]).getD 1 0) (([⟨1, 1⟩, ⟨2, 2⟩] : List FieldDesc).getD 1 default).size 1 :=
  @grow_shrink_data_preservation ⟨1, 1⟩ [⟨2, 2⟩] 2 4 2 2 0 (fun a => a)
    (applyMoves (fun a => a)
      (fieldMoves 0 2 (([⟨1, 1⟩, ⟨2, 2⟩] : List FieldDesc).zip
        (((0 : Nat) :: [2]).zip ((0 : Nat) :: [4])))).reverse)
    (applyMoves (applyMoves (fun a => a)
      (fieldMoves 0 2 (([⟨1, 1⟩, ⟨2, 2⟩] : List FieldDesc).zip
        (((0 : Nat) :: [2]).zip ((0 : Nat) :: [4])))).reverse)
      (fieldMoves 0 2 (([⟨1, 1⟩, ⟨2, 2⟩] : List FieldDesc).zip
        (((0 : Nat) :: [4]).zip ((0 : Nat) :: [2])))))
    ⟨6, 2⟩ ⟨12, 2⟩ ⟨6, 2⟩ [2] [4] [2]
    (by decide) (by decide) (by decide) (by decide)
    (by decide) (by decide) (by decide) (by decide) (by decide)
    rfl rfl 1 (by decide) 1 (by decide)

/-- A `set` leaves every address outside all of its per-field write regions
unchanged. -/
theorem set_of_notin : ∀ (fbs : List (FieldDesc × Nat)) (vs : List (List Nat)) (m : Mem)
    (idx a : Nat),
    (∀ p ∈ fbs.zip vs,
      ¬ (p.1.2 + idx * p.1.1.size ≤ a ∧ a < p.1.2 + idx * p.1.1.size + p.2.length)) →
    set m idx fbs vs a = m a
  | [], _, _, _, _, _ => rfl
  | _ :: _, [], _, _, _, _ => rfl
  | (f, b) :: fbs, v :: vs, m, idx, a, h => by
    have htail := set_of_notin fbs vs (writeList m (b + idx * f.size) v) idx a
      (fun p hp => h p (List.mem_cons_of_mem _ hp))
    have hhead := h ((f, b), v) (List.mem_cons_self _ _)
    show set (writeList m (b + idx * f.size) v) idx fbs vs a = m a
    rw [htail]
    exact writeList_of_notin hhead

/-- Writing a record with `set` and reading it back with `get` at the same
index returns the record's field values, provided each value has its field's
size and the per-field element regions at that index are pairwise disjoint. -/
theorem get_set_same : ∀ (fbs : List (FieldDesc × Nat)) (vs : List (List Nat)) (m : Mem)
    (idx : Nat),
    List.Forall₂ (fun (fb : FieldDesc × Nat) (v : List Nat) => v.length = fb.1.size) fbs vs →
    fbs.Pairwise (fun u v =>
      u.2 + idx * u.1.size + u.1.size ≤ v.2 + idx * v.1.size ∨
      v.2 + idx * v.1.size + v.1.size ≤ u.2 + idx * u.1.size) →
    get (set m idx fbs vs) idx fbs = vs := by
  intro fbs vs m idx hlen
  induction hlen generalizing m with
  | nil => intro _; rfl
  | cons hv htail ih =>
    rename_i fb v fbs vs
    intro hpw
    obtain ⟨f, b⟩ := fb
    rcases List.pairwise_cons.mp hpw with ⟨hhead, hpw2⟩
    show readBytes (set (writeList m (b + idx * f.size) v) idx fbs vs)
        (b + idx * f.size) f.size :: get (set (writeList m (b + idx * f.size) v) idx fbs vs)
        idx fbs = v :: vs
    have hlenzip : ∀ p ∈ fbs.zip vs, (p.2 : List Nat).length = p.1.1.size :=
      fun p hp => (List.forall₂_iff_zip.mp htail).2 hp
    have hheadread : readBytes (set (writeList m (b + idx * f.size) v) idx fbs vs)
        (b + idx * f.size) f.size =
        readBytes (writeList m (b + idx * f.size) v) (b + idx * f.size) f.size := by
      apply readBytes_congr
      intro k hk
      apply set_of_notin
      intro p hp
      have hmem := (List.of_mem_zip hp).1
      have hdis := hhead p.1 hmem
      have hplen : p.2.length = p.1.1.size := hlenzip p hp
      rw [hplen]
      dsimp only at hv hdis ⊢
      omega
    rw [hheadread]
    rw [show f.size = v.length from hv.symm, readBytes_writeList]
    rw [ih _ hpw2]

/-- Reading a slot whose per-field regions are disjoint from all regions a
`set` writes returns the same bytes as before the `set`. -/
theorem get_set_other (fbs : List (FieldDesc × Nat)) (vs : List (List Nat)) (m : Mem)
    (idx jdx : Nat)
    (hdis : ∀ fb ∈ fbs, ∀ p ∈ fbs.zip vs, ∀ a,
      fb.2 + jdx * fb.1.size ≤ a → a < fb.2 + jdx * fb.1.size + fb.1.size →
      ¬ (p.1.2 + idx * p.1.1.size ≤ a ∧ a < p.1.2 + idx * p.1.1.size + p.2.length)) :
    get (set m idx fbs vs) jdx fbs = get m jdx fbs := by
  unfold get
  apply List.map_congr_left
  intro fb hfb
  apply readBytes_congr
  intro k hk
  apply set_of_notin
  intro p hp
  exact hdis fb hfb p hp (fb.2 + jdx * fb.1.size + k) (by omega) (by omega)

/-- The per-field view of a storage laid out over `ptr`: entry `i` pairs the
`i`-th field descriptor with its base address `ptr + offset i`. -/
theorem storage_fbs_getElem {f : FieldDesc} {fs : List FieldDesc} {ptr i : Nat}
    {offs : List Nat} (hlen : offs.length = fs.length) (hi : i < fs.length + 1)
    (hi2 : i < ((f :: fs).zip (with_offsets ptr (0 :: offs))).length) :
    ((f :: fs).zip (with_offsets ptr (0 :: offs)))[i] =
      ((f :: fs).getD i default, ptr + (0 :: offs).getD i 0) := by
  have h1 : i < (f :: fs).length := by simpa using hi
  have h2 : i < ((0 : Nat) :: offs).length := by simp [hlen]; omega
  simp only [List.getElem_zip, with_offsets, List.getElem_map]
  rw [List.getD_eq_getElem (f :: fs) default h1, List.getD_eq_getElem ((0 : Nat) :: offs) 0 h2]

theorem storage_fbs_length {f : FieldDesc} {fs : List FieldDesc} {ptr : Nat}
    {offs : List Nat} (hlen : offs.length = fs.length) :
    ((f :: fs).zip (with_offsets ptr (0 :: offs))).length = fs.length + 1 := by
  simp [with_offsets, hlen]

/-- Claim C4: write/read round-trip.  For a storage laid out over `ptr` at a
capacity whose layout computation succeeds, any index `idx < cap` and any
record value (one byte list per field, each of its field's size), `set`
followed by `get` at the same index returns the record's field values
exactly. -/
theorem set_get_roundtrip {f : FieldDesc} {fs : List FieldDesc} {cap : Nat}
    {l : Layout} {offs : List Nat} {ptr idx : Nat} {vals : List (List Nat)} {m : Mem}
    (h : layout_and_offsets (f :: fs) cap = some (l, offs))
    (hwf : ∀ g ∈ f :: fs, 0 < g.align)
    (hidx : idx < cap)
    (hlen : List.Forall₂ (fun (g : FieldDesc) (v : List Nat) => v.length = g.size)
      (f :: fs) vals) :
    get (set m idx ((f :: fs).zip (with_offsets ptr (0 :: offs))) vals) idx
      ((f :: fs).zip (with_offsets ptr (0 :: offs))) = vals := by
  have hoffl := layout_and_offsets_length h
  have hfbl := @storage_fbs_length f fs ptr offs hoffl
  have hvlen : vals.length = fs.length + 1 := by
    have := List.Forall₂.length_eq hlen
    simpa using this.symm
  apply get_set_same
  · apply List.forall₂_of_length_eq_of_get
    · omega
    · intro i h₁ h₂
      have hi : i < fs.length + 1 := by omega
      simp only [List.get_eq_getElem]
      rw [storage_fbs_getElem hoffl hi h₁]
      have hg := hlen.get (i := i) (by simpa using hi) (by omega)
      simp only [List.get_eq_getElem] at hg
      rw [List.getD_eq_getElem (f :: fs) default (by simpa using hi)]
      exact hg
  · rw [List.pairwise_iff_getElem]
    intro p q hp hq hpq
    have hple : p < fs.length + 1 := by omega
    have hqle : q < fs.length + 1 := by omega
    rw [storage_fbs_getElem hoffl hple hp, storage_fbs_getElem hoffl hqle hq]
    have hgap := offsets_gap h hwf p q hpq hqle
    have hmul : ((f :: fs).getD p default).size * (idx + 1) ≤
        ((f :: fs).getD p default).size * cap :=
      Nat.mul_le_mul_left _ (by omega)
    have he : ((f :: fs).getD p default).size * (idx + 1) =
        idx * ((f :: fs).getD p default).size + ((f :: fs).getD p default).size := by ring
    left
    dsimp only
    omega

/-- Witness for `set_get_roundtrip`: the three-field scenario at capacity 4,
index 2, record value `([9], [7, 7], [1, 2, 3, 4, 5, 6, 7, 8])` sized 1, 2, 8
... with field sizes 4, 1, 8 respectively. -/
theorem set_get_roundtrip_witness :
    get (set (fun a => a) 2
        (([⟨4, 4⟩, ⟨1, 1⟩, ⟨8, 8⟩] : List FieldDesc).zip (with_offsets 0 (0 :: [16, 24])))
        [[9, 9, 9, 9], [7], [1, 2, 3, 4, 5, 6, 7, 8]]) 2
      (([⟨4, 4⟩, ⟨1, 1⟩, ⟨8, 8⟩] : List FieldDesc).zip (with_offsets 0 (0 :: [16, 24]))) =
      [[9, 9, 9, 9], [7], [1, 2, 3, 4, 5, 6, 7, 8]] :=
  @set_get_roundtrip ⟨4, 4⟩ [⟨1, 1⟩, ⟨8, 8⟩] 4 ⟨56, 8⟩ [16, 24] 0 2
    [[9, 9, 9, 9], [7], [1, 2, 3, 4, 5, 6, 7, 8]] (fun a => a)
    (by decide) (by decide) (by decide)
    (by constructor
        · decide
        · constructor
          · decide
          · constructor
            · decide
            · exact List.Forall₂.nil)

/-- Claim C9: frame effect of `set`.  For a storage laid out over `ptr` at a
capacity whose layout computation succeeds, writing a record at index `idx`
leaves the stored bytes of every field at any other index `jdx < cap`
unchanged: `get` at `jdx` returns the same field values before and after the
`set`. -/
theorem set_frame_effect {f : FieldDesc} {fs : List FieldDesc} {cap : Nat}
    {l : Layout} {offs : List Nat} {ptr idx jdx : Nat} {vals : List (List Nat)} {m : Mem}
    (h : layout_and_offsets (f :: fs) cap = some (l, offs))
    (hwf : ∀ g ∈ f :: fs, 0 < g.align)
    (hidx : idx < cap) (hjdx : jdx < cap) (hne : jdx ≠ idx)
    (hlen : List.Forall₂ (fun (g : FieldDesc) (v : List Nat) => v.length = g.size)
      (f :: fs) vals) :
    get (set m idx ((f :: fs).zip (with_offsets ptr (0 :: offs))) vals) jdx
      ((f :: fs).zip (with_offsets ptr (0 :: offs))) =
      get m jdx ((f :: fs).zip (with_offsets ptr (0 :: offs))) := by
  have hoffl := layout_and_offsets_length h
  have hfbl := @storage_fbs_length f fs ptr offs hoffl
  have hvlen : vals.length = fs.length + 1 := by
    have := List.Forall₂.length_eq hlen
    simpa using this.symm
  apply get_set_other
  intro fb hfb p hp a ha1 ha2 hbad
  obtain ⟨r, hr, hfbr⟩ := List.mem_iff_getElem.mp hfb
  have hrle : r < fs.length + 1 := by omega
  rw [storage_fbs_getElem hoffl hrle hr] at hfbr
  obtain ⟨w, hw, hpw⟩ := List.mem_iff_getElem.mp hp
  have hwle : w < fs.length + 1 := by
    have := @List.length_zip _ _ ((f :: fs).zip (with_offsets ptr (0 :: offs))) vals
    omega
  rw [List.getElem_zip] at hpw
  rw [storage_fbs_getElem hoffl hwle (by omega)] at hpw
  have hvw : vals[w].length = ((f :: fs).getD w default).size := by
    have hg := hlen.get (i := w) (by simpa using hwle) (by omega)
    simp only [List.get_eq_getElem] at hg
    rw [List.getD_eq_getElem (f :: fs) default (by simpa using hwle)]
    exact hg
  subst hfbr
  subst hpw
  dsimp only at ha1 ha2 hbad
  rw [hvw] at hbad
  rcases hbad with ⟨hb1, hb2⟩
  rcases Nat.lt_trichotomy r w with hrw | hrw | hrw
  · have hgap := offsets_gap h hwf r w hrw hwle
    have hm1 : ((f :: fs).getD r default).size * (jdx + 1) ≤
        ((f :: fs).getD r default).size * cap :=
      Nat.mul_le_mul_left _ (by omega)
    have he1 : ((f :: fs).getD r default).size * (jdx + 1) =
        jdx * ((f :: fs).getD r default).size + ((f :: fs).getD r default).size := by ring
    omega
  · subst hrw
    rcases Nat.lt_or_ge jdx idx with hji | hji
    · have hm1 : ((f :: fs).getD r default).size * (jdx + 1) ≤
          ((f :: fs).getD r default).size * idx :=
        Nat.mul_le_mul_left _ (by omega)
      have he1 : ((f :: fs).getD r default).size * (jdx + 1) =
          jdx * ((f :: fs).getD r default).size + ((f :: fs).getD r default).size := by ring
      have he2 : ((f :: fs).getD r default).size * idx =
          idx * ((f :: fs).getD r default).size := by ring
      omega
    · have hij : idx < jdx := by omega
      have hm1 : ((f :: fs).getD r default).size * (idx + 1) ≤
          ((f :: fs).getD r default).size * jdx :=
        Nat.mul_le_mul_left _ (by omega)
      have he1 : ((f :: fs).getD r default).size * (idx + 1) =
          idx * ((f :: fs).getD r default).size + ((f :: fs).getD r default).size := by ring
      have he2 : ((f :: fs).getD r default).size * jdx =
          jdx * ((f :: fs).getD r default).size := by ring
      omega
  · have hgap := offsets_gap h hwf w r hrw hrle
    have hm1 : ((f :: fs).getD w default).size * (idx + 1) ≤
        ((f :: fs).getD w default).size * cap :=
      Nat.mul_le_mul_left _ (by omega)
    have he1 : ((f :: fs).getD w default).size * (idx + 1) =
        idx * ((f :: fs).getD w default).size + ((f :: fs).getD w default).size := by ring
    omega

/-- Witness for `set_frame_effect`: writing index 2 of the three-field
storage leaves the record at index 1 unchanged. -/
theorem set_frame_effect_witness :
    get (set (fun a => a) 2
        (([⟨4, 4⟩, ⟨1, 1⟩, ⟨8, 8⟩] : List FieldDesc).zip (with_offsets 0 (0 :: [16, 24])))
        [[9, 9, 9, 9], [7], [1, 2, 3, 4, 5, 6, 7, 8]]) 1
      (([⟨4, 4⟩, ⟨1, 1⟩, ⟨8, 8⟩] : List FieldDesc).zip (with_offsets 0 (0 :: [16, 24]))) =
      get (fun a => a) 1
        (([⟨4, 4⟩, ⟨1, 1⟩, ⟨8, 8⟩] : List FieldDesc).zip (with_offsets 0 (0 :: [16, 24]))) :=
  @set_frame_effect ⟨4, 4⟩ [⟨1, 1⟩, ⟨8, 8⟩] 4 ⟨56, 8⟩ [16, 24] 0 2 1
    [[9, 9, 9, 9], [7], [1, 2, 3, 4, 5, 6, 7, 8]] (fun a => a)
    (by decide) (by decide) (by decide) (by decide) (by decide)
    (by constructor
        · decide
        · constructor
          · decide
          · constructor
            · decide
            · exact List.Forall₂.nil)

/-- A `memmove` looks at the underlying memory only at the address read and
inside its source region. -/
theorem memmove_congrOn {m1 m2 : Mem} {s d n a : Nat}
    (h1 : m1 a = m2 a) (h2 : ∀ k, k < n → m1 (s + k) = m2 (s + k)) :
    memmove m1 s d n a = memmove m2 s d n a := by
  unfold memmove
  split
  · rename_i hin
    exact h2 (a - d) (by omega)
  · exact h1

/-- A `copy` leaves every address outside all of its per-field destination
regions unchanged. -/
theorem copy_of_notin : ∀ (fbs : List (FieldDesc × Nat)) (m : Mem) (src dst count a : Nat),
    (∀ u ∈ fbs, ¬ (u.2 + dst * u.1.size ≤ a ∧ a < u.2 + dst * u.1.size + count * u.1.size)) →
    copy m src dst count fbs a = m a
  | [], _, _, _, _, _, _ => rfl
  | (g, b) :: fbs, m, src, dst, count, a, h => by
    have htail := copy_of_notin fbs
      (memmove m (b + src * g.size) (b + dst * g.size) (count * g.size)) src dst count a
      (fun u hu => h u (List.mem_cons_of_mem _ hu))
    show copy (memmove m (b + src * g.size) (b + dst * g.size) (count * g.size))
        src dst count fbs a = m a
    rw [htail]
    exact memmove_of_notin (by
      have := h (g, b) (List.mem_cons_self _ _)
      dsimp only at this ⊢
      omega)

/-- On each field's own array region, `copy` acts exactly as that field's
single overlap-safe `memmove`, independently of every other field, provided
the fields' arrays are pairwise disjoint and the source and destination
element ranges lie inside the arrays. -/
theorem copy_eq_memmove_per_field : ∀ (fbs : List (FieldDesc × Nat)) (m : Mem)
    (src dst count cap : Nat), src + count ≤ cap → dst + count ≤ cap →
    fbs.Pairwise (fun u v => u.2 + cap * u.1.size ≤ v.2 ∨ v.2 + cap * v.1.size ≤ u.2) →
    ∀ fb ∈ fbs, ∀ a, fb.2 ≤ a → a < fb.2 + cap * fb.1.size →
      copy m src dst count fbs a =
        memmove m (fb.2 + src * fb.1.size) (fb.2 + dst * fb.1.size) (count * fb.1.size) a
  | [], _, _, _, _, _, _, _, _, _, hfb, _, _, _ => absurd hfb (List.not_mem_nil _)
  | (g, b) :: fbs, m, src, dst, count, cap, hs, hd, hpw, fb, hfb, a, ha1, ha2 => by
    rcases List.pairwise_cons.mp hpw with ⟨hhead, htail⟩
    rcases List.mem_cons.mp hfb with heq | hmem
    · subst heq
      dsimp only at ha1 ha2 ⊢
      show copy (memmove m (b + src * g.size) (b + dst * g.size) (count * g.size))
          src dst count fbs a =
        memmove m (b + src * g.size) (b + dst * g.size) (count * g.size) a
      apply copy_of_notin
      intro u hu
      have hdis := hhead u hu
      have hm1 : u.1.size * (dst + count) ≤ u.1.size * cap := Nat.mul_le_mul_left _ hd
      have he1 : u.1.size * (dst + count) = dst * u.1.size + count * u.1.size := by ring
      have he2 : u.1.size * cap = cap * u.1.size := by ring
      dsimp only at hdis ⊢
      omega
    · have hih := copy_eq_memmove_per_field fbs
        (memmove m (b + src * g.size) (b + dst * g.size) (count * g.size))
        src dst count cap hs hd htail fb hmem a ha1 ha2
      show copy (memmove m (b + src * g.size) (b + dst * g.size) (count * g.size))
          src dst count fbs a =
        memmove m (fb.2 + src * fb.1.size) (fb.2 + dst * fb.1.size) (count * fb.1.size) a
      rw [hih]
      have hdis := hhead fb hmem
      apply memmove_congrOn
      · apply memmove_of_notin
        have hm1 : g.size * (dst + count) ≤ g.size * cap := Nat.mul_le_mul_left _ hd
        have he1 : g.size * (dst + count) = dst * g.size + count * g.size := by ring
        have he2 : g.size * cap = cap * g.size := by ring
        dsimp only at hdis ⊢
        omega
      · intro k hk
        apply memmove_of_notin
        have hm1 : g.size * (dst + count) ≤ g.size * cap := Nat.mul_le_mul_left _ hd
        have he1 : g.size * (dst + count) = dst * g.size + count * g.size := by ring
        have he2 : g.size * cap = cap * g.size := by ring
        have hm2 : fb.1.size * (src + count) ≤ fb.1.size * cap := Nat.mul_le_mul_left _ hs
        have he3 : fb.1.size * (src + count) = src * fb.1.size + count * fb.1.size := by ring
        have he4 : fb.1.size * cap = cap * fb.1.size := by ring
        dsimp only at hdis ⊢
        omega

/-- Claim C5: `copy_within` correctness.  For a storage laid out over `ptr`
at a capacity whose layout computation succeeds and any ranges with
`src + count ≤ cap` and `dst + count ≤ cap` (overlap allowed), `copy` leaves
each field's array equal to the result of a single overlap-safe `memmove` of
`count` elements from `src` to `dst` within that field's own array: at every
address of field `i`'s array region, the result of `copy` coincides with
that single per-field `memmove`. -/
theorem copy_within_matches_memmove {f : FieldDesc} {fs : List FieldDesc} {cap : Nat}
    {l : Layout} {offs : List Nat} {ptr src dst count : Nat} {m : Mem}
    (h : layout_and_offsets (f :: fs) cap = some (l, offs))
    (hwf : ∀ g ∈ f :: fs, 0 < g.align)
    (hs : src + count ≤ cap) (hd : dst + count ≤ cap) :
    ∀ i, i < fs.length + 1 → ∀ a,
      ptr + (0 :: offs).getD i 0 ≤ a →
      a < ptr + (0 :: offs).getD i 0 + cap * ((f :: fs).getD i default).size →
      copy m src dst count ((f :: fs).zip (with_offsets ptr (0 :: offs))) a =
        memmove m
          (ptr + (0 :: offs).getD i 0 + src * ((f :: fs).getD i default).size)
          (ptr + (0 :: offs).getD i 0 + dst * ((f :: fs).getD i default).size)
          (count * ((f :: fs).getD i default).size) a := by
  intro i hi a ha1 ha2
  have hoffl := layout_and_offsets_length h
  have hfbl := @storage_fbs_length f fs ptr offs hoffl
  have hpw : ((f :: fs).zip (with_offsets ptr (0 :: offs))).Pairwise
      (fun u v => u.2 + cap * u.1.size ≤ v.2 ∨ v.2 + cap * v.1.size ≤ u.2) := by
    rw [List.pairwise_iff_getElem]
    intro p q hp hq hpq
    have hqle : q < fs.length + 1 := by omega
    rw [storage_fbs_getElem hoffl (by omega) hp, storage_fbs_getElem hoffl hqle hq]
    have hgap := offsets_gap h hwf p q hpq hqle
    have he : ((f :: fs).getD p default).size * cap = cap * ((f :: fs).getD p default).size := by
      ring
    left
    dsimp only
    omega
  have hmem : (((f :: fs).getD i default, ptr + (0 :: offs).getD i 0) : FieldDesc × Nat) ∈
      (f :: fs).zip (with_offsets ptr (0 :: offs)) := by
    rw [← storage_fbs_getElem hoffl hi (by omega)]
    exact List.getElem_mem _
  have hmain := copy_eq_memmove_per_field ((f :: fs).zip (with_offsets ptr (0 :: offs)))
    m src dst count cap hs hd hpw _ hmem a (by dsimp only; omega) (by dsimp only; omega)
  simpa using hmain

/-- Witness for `copy_within_matches_memmove`: two fields at capacity 10,
overlapping move `src = 0, dst = 2, count = 5`, checked at address 14 inside
the second field's array. -/
theorem copy_within_matches_memmove_witness :
    copy (fun a => a) 0 2 5
        (([⟨1, 1⟩, ⟨2, 2⟩] : List FieldDesc).zip (with_offsets 0 (0 :: [10]))) 14 =
      memmove (fun a => a)
        (0 + ((0 : Nat) :: [10]).getD 1 0 + 0 * (([⟨1, 1⟩, ⟨2, 2⟩] : List FieldDesc).getD 1 default).size)
        (0 + ((0 : Nat) :: [10]).getD 1 0 + 2 * (([⟨1, 1⟩, ⟨2, 2⟩] : List FieldDesc).getD 1 default).size)
        (5 * (([⟨1, 1⟩, ⟨2, 2⟩] : List FieldDesc).getD 1 default).size) 14 :=
  @copy_within_matches_memmove ⟨1, 1⟩ [⟨2, 2⟩] 10 ⟨30, 2⟩ [10] 0 0 2 5 (fun a => a)
    (by decide) (by decide) (by decide) (by decide) 1 (by decide) 14 (by decide) (by decide)

end Soa
